import Mathlib

/-!
Verification of the agent-replay transcript pipeline

A shallow embedding of the transcript-normalization and playback core of the
`agent-replay` repository, together with proofs and refutations of the frozen
claims about it.

Conventions of the embedding:

* JavaScript strings are modelled as `List Char`; the helper `cs` converts a
  Lean string literal to that representation.
* Dynamic JSON values (the result of `JSON.parse` and the inputs of the
  structured-export parser) are modelled by the inductive type `JsVal`, with an
  explicit `undefined` constructor standing for JavaScript's `undefined` so that
  member access is total.  Member access on `null` throws in JavaScript; the
  model returns `undefined` instead, which is sound for every claim below because
  their inputs never read a member of `null` (in the JSONL parser such a throw
  is caught and the line skipped, which coincides with emitting nothing).
* Fallible operations return `Option`; `none` models a thrown exception.
-/

namespace AgentReplay

/-- Convert a Lean string literal to the `List Char` representation used for
JavaScript strings throughout the embedding. -/
def cs (s : String) : List Char := s.data

/-- JavaScript whitespace test for the characters relevant to `String.trim`. -/
def isWs (c : Char) : Bool :=
  c = ' ' ∨ c = '\t' ∨ c = '\n' ∨ c = '\r'

/-- Left part of JS `String.prototype.trim`: drop leading whitespace. -/
def trimLeft (s : List Char) : List Char := s.dropWhile isWs

/-- Right part of JS `String.prototype.trim`: drop trailing whitespace. -/
def trimRight (s : List Char) : List Char := (trimLeft s.reverse).reverse

/-- JS `String.prototype.trim`. -/
def trim (s : List Char) : List Char := trimRight (trimLeft s)

/-- JS `String.prototype.startsWith` for list-strings. -/
def startsWith (pat s : List Char) : Bool := pat.isPrefixOf s

/-- Character index of the first occurrence of `pat` in `s`
(JS `String.prototype.indexOf`, restricted to found/not-found). -/
def findSub (pat : List Char) : List Char → Option Nat
  | [] => if startsWith pat [] then some 0 else none
  | c :: rest =>
    if startsWith pat (c :: rest) then some 0
    else (findSub pat rest).map (· + 1)

/-- First region delimited by `openT … closeT` in `s`:
returns `(before, inner, after)` for the first occurrence of `openT`
followed by the first occurrence of `closeT` after it. -/
def matchRegion (openT closeT s : List Char) :
    Option (List Char × List Char × List Char) :=
  (findSub openT s).bind fun i =>
    (findSub closeT (s.drop (i + openT.length))).map fun j =>
      (s.take i, (s.drop (i + openT.length)).take j,
        (s.drop (i + openT.length)).drop (j + closeT.length))

/-- Split a list-string on a separator character (JS `String.prototype.split`
with a single-character separator: `"".split` gives `[""]`). -/
def splitOnChar (sep : Char) : List Char → List (List Char)
  | [] => [[]]
  | c :: rest =>
    let r := splitOnChar sep rest
    if c = sep then [] :: r
    else
      match r with
      | [] => [[c]]
      | h :: t => (c :: h) :: t

/-- JS `Array.prototype.join` separator insertion. -/
def joinWith (sep : List Char) : List (List Char) → List Char
  | [] => []
  | [x] => x
  | x :: rest => x ++ sep ++ joinWith sep rest

/-- Case-insensitive substring containment:
`s.toLowerCase().includes(pat)` for an already-lowercase `pat`. -/
def containsLower (pat s : List Char) : Bool :=
  (findSub pat (s.map Char.toLower)).isSome

/-! ## Content extraction (CursorAdapter.extractUserContent) -/

/-- The fixed list of wrapper tags stripped by `extractUserContent`
(from `cursor.ts`, `tagsToStrip`). -/
def tagsToStrip : List (List Char) :=
  [cs "external_links", cs "manually_attached_skills",
   cs "open_and_recently_viewed_files",
   cs "system_reminder", cs "git_status", cs "user_info", cs "rules",
   cs "agent_skills",
   cs "agent_transcripts", cs "mcp_file_system", cs "tool_calling",
   cs "making_code_changes",
   cs "citing_code", cs "inline_line_numbers",
   cs "terminal_files_information",
   cs "task_management", cs "tone_and_style", cs "system-communication"]

/-- Opening tag text `<tag>`. -/
def openTag (tag : List Char) : List Char := '<' :: tag ++ ['>']

/-- Closing tag text `</tag>`. -/
def closeTag (tag : List Char) : List Char := '<' :: '/' :: tag ++ ['>']

/-- One global lazy replace of `<tag>[\s\S]*?</tag>` with the empty string:
remove each non-overlapping region left to right, continuing after the end of
the removed region (as JS `String.prototype.replace` with a `g` regex does —
the emitted prefix is not rescanned within one call).  The `fuel` argument is
only a structural-termination device: each removal strictly shrinks the text
(`matchRegion_after_lt`), so `fuel = s.length` never runs out. -/
def stripTagGo (tag : List Char) : Nat → List Char → List Char
  | 0, s => s
  | fuel + 1, s =>
    match matchRegion (openTag tag) (closeTag tag) s with
    | none => s
    | some (pre, _inner, post) => pre ++ stripTagGo tag fuel post

/-- `cleaned.replace(/<tag>[\s\S]*?<\/tag>/g, '')` from
`CursorAdapter.extractUserContent`. -/
def stripTagRegions (tag : List Char) (s : List Char) : List Char :=
  stripTagGo tag s.length s

/-- `CursorAdapter.extractUserContent`: if the text contains a
`<user_query>…</user_query>` region, return its trimmed inner text; otherwise
strip every named wrapper-tag region (in the fixed tag order) and trim. -/
def extractUserContent (text : List Char) : List Char :=
  match matchRegion (openTag (cs "user_query")) (closeTag (cs "user_query"))
      text with
  | some r => trim r.2.1
  | none =>
    let cleaned := tagsToStrip.foldl (fun acc tag => stripTagRegions tag acc)
      text
    trim cleaned

/-! ## Dynamic JSON values

`JsVal` models the values produced by `JSON.parse` plus JavaScript's
`undefined` (constructor `undefined`), so that member access can be total.
Object keys are list-strings; parsed objects are assumed to have distinct
keys (JSON.parse keeps the last duplicate; the claims never exercise
duplicates). -/

inductive JsVal where
  | undefined : JsVal
  | null : JsVal
  | bool : Bool → JsVal
  | num : Int → JsVal
  | str : List Char → JsVal
  | arr : List JsVal → JsVal
  | obj : List (List Char × JsVal) → JsVal
  deriving Repr

/-- JavaScript member access `v[k]`: `undefined` for missing keys and for
non-object receivers.  (On `null`/`undefined` receivers JavaScript throws; the
model returns `undefined`, which is observationally equivalent in every place
the claims exercise, because the surrounding code either catches the throw and
skips the unit or the access result is discarded.) -/
def jsField (v : JsVal) (k : List Char) : JsVal :=
  match v with
  | .obj fields =>
    match fields.lookup k with
    | some w => w
    | none => .undefined
  | _ => .undefined

/-- JavaScript optional chaining `v?.k`. -/
def optChain (v : JsVal) (k : List Char) : JsVal :=
  match v with
  | .undefined => .undefined
  | .null => .undefined
  | _ => jsField v k

/-- JavaScript truthiness. -/
def jsTruthy : JsVal → Bool
  | .undefined => false
  | .null => false
  | .bool b => b
  | .num n => n ≠ 0
  | .str s => s ≠ []
  | .arr _ => true
  | .obj _ => true

/-- Strict equality `v === 'lit'` against a string literal. -/
def jsStrictEqStr (v : JsVal) (lit : List Char) : Bool :=
  match v with
  | .str t => t = lit
  | _ => false

/-- `undefined` or `null` (the values `Array.prototype.join` renders as the
empty string). -/
def isNullish : JsVal → Bool
  | .undefined => true
  | .null => true
  | _ => false

mutual
/-- JavaScript `String(v)` coercion (arrays stringify as their elements
joined by commas, with nullish elements rendered empty). -/
def jsToChars : JsVal → List Char
  | .undefined => cs "undefined"
  | .null => cs "null"
  | .bool true => cs "true"
  | .bool false => cs "false"
  | .num n => cs (toString n)
  | .str s => s
  | .arr xs => joinWith [','] (jsToCharsArr xs)
  | .obj _ => cs "[object Object]"

/-- Elementwise stringification for array joining. -/
def jsToCharsArr : List JsVal → List (List Char)
  | [] => []
  | v :: vs =>
    (if isNullish v then [] else jsToChars v) :: jsToCharsArr vs
end

/-- One element of `Array.prototype.join`: nullish values render empty. -/
def jsJoinElem (v : JsVal) : List Char :=
  if isNullish v then [] else jsToChars v

/-! ## The unified message model (`types/chat.ts`) -/

inductive Role where
  | user | assistant | thinking | tool_call | tool_result | subagent
  deriving DecidableEq, Repr

structure ToolCall where
  name : List Char
  args : List (List Char × List Char)
  deriving Repr

structure ToolRes where
  name : List Char
  output : List Char
  deriving Repr

mutual
/-- `UnifiedMessage`: role, content, and the optional role-specific payloads. -/
inductive UMsg where
  | mk (role : Role) (content : List Char) (toolCall : Option ToolCall)
      (toolResult : Option ToolRes) (subagent : Option SubagentConversation)

/-- `SubagentConversation`: id, messages, optional creation time. -/
inductive SubagentConversation where
  | mk (id : List Char) (messages : List UMsg) (createdAt : Option Int)
end

def UMsg.role : UMsg → Role
  | .mk r _ _ _ _ => r

def UMsg.content : UMsg → List Char
  | .mk _ c _ _ _ => c

def UMsg.toolCall : UMsg → Option ToolCall
  | .mk _ _ tc _ _ => tc

def UMsg.toolResult : UMsg → Option ToolRes
  | .mk _ _ _ tr _ => tr

def UMsg.subagent : UMsg → Option SubagentConversation
  | .mk _ _ _ _ sa => sa

/-- A message carrying only a role and text content. -/
def UMsg.simple (r : Role) (c : List Char) : UMsg :=
  .mk r c none none none

def SubagentConversation.id : SubagentConversation → List Char
  | .mk i _ _ => i

def SubagentConversation.messages : SubagentConversation → List UMsg
  | .mk _ ms _ => ms

/-! ## JSONL event-log parsing (`CursorAdapter.parseJsonlTranscript`)

`JSON.parse` is abstracted as a parameter `p : List Char → Option JsVal`
(`none` = syntax error); every genuine JSON parser satisfies
`trim l = [] → p l = none`, which is the only fact the claims need. -/

/-- Processing of one successfully parsed JSONL record (the body of the `try`
block in `parseJsonlTranscript`): extract the `text`-typed content blocks,
join them, run user content through `extractUserContent`, and drop the record
when nothing (or empty text) results.  `none` also covers a thrown
`TypeError` (`.filter` on a truthy non-array `content`), which the
surrounding `catch` turns into a skipped line. -/
def contentValOf (entry : JsVal) : JsVal :=
  optChain (jsField entry (cs "message")) (cs "content")

/-- `content.filter(c => c.type === 'text')`. -/
def textBlocksOf (blocks : List JsVal) : List JsVal :=
  blocks.filter fun c => jsStrictEqStr (jsField c (cs "type")) (cs "text")

/-- `textParts.map(c => c.text).join('\n')`. -/
def joinedTextOf (blocks : List JsVal) : List Char :=
  joinWith (cs "\n")
    ((textBlocksOf blocks).map fun c => jsJoinElem (jsField c (cs "text")))

def recordMessage (entry : JsVal) : Option UMsg :=
  match (if jsTruthy (contentValOf entry) then contentValOf entry
      else .arr []) with
  | .arr blocks =>
    if (textBlocksOf blocks).isEmpty then none
    else if jsStrictEqStr (jsField entry (cs "role")) (cs "assistant") then
      if joinedTextOf blocks = [] then none
      else some (UMsg.simple Role.assistant (joinedTextOf blocks))
    else
      if extractUserContent (joinedTextOf blocks) = [] then none
      else some (UMsg.simple Role.user
        (extractUserContent (joinedTextOf blocks)))
  | _ => none

/-- The accumulating loop of `parseJsonlTranscript`: parse each line, skip it
on failure, append the derived message otherwise. -/
def parseJsonlLoop (p : List Char → Option JsVal) :
    List (List Char) → List UMsg → List UMsg
  | [], acc => acc
  | l :: ls, acc =>
    match (p l).bind recordMessage with
    | some m => parseJsonlLoop p ls (acc ++ [m])
    | none => parseJsonlLoop p ls acc

/-- `CursorAdapter.parseJsonlTranscript` on file content:
`content.trim().split('\n').filter(l => l.trim())`, then the line loop. -/
def parseJsonlTranscript (p : List Char → Option JsVal)
    (content : List Char) : List UMsg :=
  parseJsonlLoop p
    ((splitOnChar '\n' (trim content)).filter fun l => !(trim l).isEmpty) []

/-! ## Block-transcript parsing (`CursorAdapter.parseTxtTranscript` /
`parseAssistantBlock`)

The index-based `while` loops of the source become recursions over the
remaining line list; a `fuel` argument bounded below by the number of
remaining lines is a structural-termination device (each outer step consumes
at least the current line). -/

/-- A line that terminates an accumulation run inside an assistant block. -/
def isMarker (l : List Char) : Bool :=
  l = cs "user:" ∨ l = cs "assistant:" ∨
    startsWith (cs "[Thinking]") l ∨ startsWith (cs "[Tool call]") l ∨
    startsWith (cs "[Tool result]") l

/-- Accumulate lines until the next marker (the inner `while` of the
`[Thinking]` branch); returns (collected, remaining). -/
def collectUntilMarker : List (List Char) →
    List (List Char) × List (List Char)
  | [] => ([], [])
  | l :: rest =>
    if isMarker l then ([], l :: rest)
    else
      ((collectUntilMarker rest).1.cons l, (collectUntilMarker rest).2)

/-- The `/^[a-zA-Z_][a-zA-Z0-9_]*$/` key test of the `[Tool call]` branch. -/
def isIdentKey (s : List Char) : Bool :=
  match s with
  | [] => false
  | c :: rest =>
    (c.isAlpha ∨ c = '_') ∧ rest.all fun d => d.isAlphanum ∨ d = '_'

/-- JS object assignment `args[k] = v`: overwrite in place, else append
(JS objects keep first-insertion key order). -/
def upsert (k v : List Char) :
    List (List Char × List Char) → List (List Char × List Char)
  | [] => [(k, v)]
  | (k', v') :: rest =>
    if k' = k then (k, v) :: rest else (k', v') :: upsert k v rest

/-- JS `args[k] += extra`. -/
def appendToKey (k extra : List Char)
    (args : List (List Char × List Char)) :
    List (List Char × List Char) :=
  args.map fun kv => if kv.1 = k then (kv.1, kv.2 ++ extra) else kv

/-- The parameter-accumulation `while` of the `[Tool call]` branch: two-space
indented `key: value` lines set the active key, continuation lines append to
it, a blank line resets it; returns (args, remaining). -/
def collectToolArgs : List (List Char) → List Char →
    List (List Char × List Char) →
    List (List Char × List Char) × List (List Char)
  | [], _lastKey, args => (args, [])
  | l :: rest, lastKey, args =>
    if isMarker l then (args, l :: rest)
    else if startsWith (cs "  ") l then
      match findSub (cs ": ") (l.drop 2) with
      | some colonIdx =>
        if 0 < colonIdx ∧ isIdentKey ((l.drop 2).take colonIdx) then
          collectToolArgs rest ((l.drop 2).take colonIdx)
            (upsert ((l.drop 2).take colonIdx)
              ((l.drop 2).drop (colonIdx + 2)) args)
        else if lastKey ≠ [] then
          collectToolArgs rest lastKey
            (appendToKey lastKey ('\n' :: l.drop 2) args)
        else collectToolArgs rest lastKey args
      | none =>
        if lastKey ≠ [] then
          collectToolArgs rest lastKey
            (appendToKey lastKey ('\n' :: l.drop 2) args)
        else collectToolArgs rest lastKey args
    else if trim l = [] then collectToolArgs rest [] args
    else collectToolArgs rest lastKey args

/-- `flushAssistantText`: emit one assistant message when the accumulated
text is non-empty after trimming. -/
def flushAssistant (acc : List (List Char)) : List UMsg :=
  if trim (joinWith (cs "\n") acc) = [] then []
  else [UMsg.simple Role.assistant (trim (joinWith (cs "\n") acc))]

/-- `CursorAdapter.parseAssistantBlock`: the assistant-block scanner.
Returns the emitted messages and the remaining lines (starting with the
`user:`/`assistant:` marker that ended the block, if any). -/
def parseABGo : Nat → List (List Char) → List (List Char) →
    List UMsg × List (List Char)
  | 0, lines, acc => (flushAssistant acc, lines)
  | _fuel + 1, [], acc => (flushAssistant acc, [])
  | fuel + 1, l :: rest, acc =>
    if l = cs "user:" ∨ l = cs "assistant:" then
      (flushAssistant acc, l :: rest)
    else if startsWith (cs "[Thinking]") l then
      let firstText := trim (l.drop (cs "[Thinking]").length)
      let collected := (collectUntilMarker rest).1
      let remaining := (collectUntilMarker rest).2
      let fullText := trim (joinWith (cs "\n")
        ((if firstText = [] then [] else [firstText]) ++ collected))
      (flushAssistant acc ++
        (if fullText = [] then [] else [UMsg.simple Role.thinking fullText]) ++
        (parseABGo fuel remaining []).1,
       (parseABGo fuel remaining []).2)
    else if startsWith (cs "[Tool call]") l then
      let toolName := trim (l.drop (cs "[Tool call]").length)
      let args := (collectToolArgs rest [] []).1
      let remaining := (collectToolArgs rest [] []).2
      (flushAssistant acc ++
        [UMsg.mk Role.tool_call toolName (some ⟨toolName, args⟩) none none] ++
        (parseABGo fuel remaining []).1,
       (parseABGo fuel remaining []).2)
    else if startsWith (cs "[Tool result]") l then
      (flushAssistant acc ++
        [UMsg.mk Role.tool_result
          (if trim (l.drop (cs "[Tool result]").length) = []
            then cs "(completed)"
            else trim (l.drop (cs "[Tool result]").length))
          none
          (some ⟨trim (l.drop (cs "[Tool result]").length),
            cs "(completed)"⟩) none] ++
        (parseABGo fuel rest []).1,
       (parseABGo fuel rest []).2)
    else
      parseABGo fuel rest (acc ++ [l])

/-- `CursorAdapter.parseAssistantBlock` from the top of a block. -/
def parseAssistantBlock (lines : List (List Char)) :
    List UMsg × List (List Char) :=
  parseABGo lines.length lines []

/-- The `user:` block accumulation of `parseTxtTranscript`: lines until the
next `user:`/`assistant:` header. -/
def collectUserBlock : List (List Char) →
    List (List Char) × List (List Char)
  | [] => ([], [])
  | l :: rest =>
    if l = cs "user:" ∨ l = cs "assistant:" then ([], l :: rest)
    else ((collectUserBlock rest).1.cons l, (collectUserBlock rest).2)

/-- `CursorAdapter.parseTxtTranscript`: the ROOT loop over `user:` and
`assistant:` headers. -/
def parseTxtGo : Nat → List (List Char) → List UMsg
  | 0, _ => []
  | _fuel + 1, [] => []
  | fuel + 1, l :: rest =>
    if l = cs "user:" then
      let text := extractUserContent
        (trim (joinWith (cs "\n") (collectUserBlock rest).1))
      (if text = [] then [] else [UMsg.simple Role.user text]) ++
        parseTxtGo fuel (collectUserBlock rest).2
    else if l = cs "assistant:" then
      (parseABGo fuel rest []).1 ++ parseTxtGo fuel (parseABGo fuel rest []).2
    else
      parseTxtGo fuel rest

/-- `CursorAdapter.parseTxtTranscript` on file content. -/
def parseTxtTranscript (content : List Char) : List UMsg :=
  parseTxtGo (splitOnChar '\n' content).length (splitOnChar '\n' content)

/-! ## Subagent placement (`CursorAdapter.placeSubagents`) -/

/-- The scan predicate of the placement loop: skip messages already holding
the `subagent` role, otherwise test whether the content mentions
`"subagent"` case-insensitively. -/
def isSubagentRef (m : UMsg) : Bool :=
  if m.role = Role.subagent then false
  else containsLower (cs "subagent") m.content

/-- Index of the first message the scan stops at (the `insertIdx` search). -/
def firstRefIdx : List UMsg → Option Nat
  | [] => none
  | m :: rest =>
    if isSubagentRef m then some 0 else (firstRefIdx rest).map (· + 1)

/-- The wrapped `subagent`-role message built for one discovered subagent. -/
def subagentMsg (sub : SubagentConversation) : UMsg :=
  UMsg.mk Role.subagent (cs "Subagent: " ++ sub.id.take 8) none none
    (some sub)

/-- `result.splice(idx, 0, a)` (insertion before position `idx`). -/
def insertAt : Nat → UMsg → List UMsg → List UMsg
  | 0, a, xs => a :: xs
  | _ + 1, a, [] => [a]
  | n + 1, a, x :: xs => x :: insertAt n a xs

/-- One iteration of the placement loop, carrying the mutating `result`
array and the `placed` index set. -/
def placeStep (st : List UMsg × List Nat) (sub : SubagentConversation) :
    List UMsg × List Nat :=
  match firstRefIdx st.1 with
  | some idx =>
    if idx ∈ st.2 then (st.1 ++ [subagentMsg sub], st.2)
    else (insertAt idx (subagentMsg sub) st.1, idx :: st.2)
  | none => (st.1 ++ [subagentMsg sub], st.2)

/-- `CursorAdapter.placeSubagents`: place each subagent (already sorted by
creation time) into the parent sequence. -/
def placeSubagents (messages : List UMsg)
    (subagents : List SubagentConversation) : List UMsg :=
  (subagents.foldl placeStep (messages, [])).1

/-- The guard-free placement rule: insert the wrapped message immediately
before the first non-subagent message mentioning `"subagent"`, appending at
the end when no such message exists. -/
def insertBeforeFirstRef (result : List UMsg) (m : UMsg) : List UMsg :=
  match firstRefIdx result with
  | some idx => insertAt idx m result
  | none => result ++ [m]

/-- Placement with the `placed`-index guard removed. -/
def placeSubagentsSimple (messages : List UMsg)
    (subagents : List SubagentConversation) : List UMsg :=
  subagents.foldl (fun res sub => insertBeforeFirstRef res (subagentMsg sub))
    messages

/-- Concrete fixtures for the placement counterexample. -/
def refMsg : UMsg := UMsg.simple Role.assistant (cs "run subagent")

def subOne : SubagentConversation := .mk (cs "sub-one") [] none

def subTwo : SubagentConversation := .mk (cs "sub-two") [] none

/-- A concrete `JSON.parse` oracle used by witnesses: the line `x` parses to
`jsonlEntry`, every other line is a syntax error. -/
def jsonlOracle : List Char → Option JsVal := fun l =>
  if l = cs "x" then some jsonlEntry else none
where
  /-- `{"role":"assistant","message":{"content":[{"type":"text","text":"hello"}]}}` -/
  jsonlEntry : JsVal :=
    .obj [(cs "role", .str (cs "assistant")),
      (cs "message", .obj [(cs "content",
        .arr [.obj [(cs "type", .str (cs "text")),
          (cs "text", .str (cs "hello"))]])])]

/-- The message derived from `jsonlOracle.jsonlEntry`. -/
def jsonlMsg : UMsg := UMsg.simple Role.assistant (cs "hello")

/-! ## Structured-export parsing (`SamplesAdapter.parseAuto` /
`parseGeminiApi`) -/

/-- `typeof v === 'string'`. -/
def isStrVal : JsVal → Bool
  | .str _ => true
  | _ => false

/-- `Object.entries(args).map(([k, v]) => [k, String(v)])`. -/
def coerceArgs (kvs : List (List Char × JsVal)) :
    List (List Char × JsVal) :=
  kvs.map fun kv => (kv.1, .str (jsToChars kv.2))

/-- The `tool_call` message built for a `functionCall` part.  `none` models
the `TypeError` thrown by `Object.entries` on a non-object `args`. -/
def toolCallJs (fc : JsVal) : Option JsVal :=
  match jsField fc (cs "args") with
  | .obj kvs =>
    some (.obj [(cs "role", .str (cs "tool_call")),
      (cs "content", jsField fc (cs "name")),
      (cs "toolCall", .obj [(cs "name", jsField fc (cs "name")),
        (cs "args", .obj (coerceArgs kvs))])])
  | _ => none

/-- The `tool_result` message built for a `functionResponse` part
(`output` taken from `response.output`). -/
def toolResultJs (fr : JsVal) : JsVal :=
  .obj [(cs "role", .str (cs "tool_result")),
    (cs "content", jsField (jsField fr (cs "response")) (cs "output")),
    (cs "toolResult", .obj [(cs "name", jsField fr (cs "name")),
      (cs "output", jsField (jsField fr (cs "response")) (cs "output"))])]

/-- Sequential processing of an iteration that can throw: concatenate the
messages pushed for each item, propagating an exception (`none`). -/
def collectMsgs : List JsVal → (JsVal → Option (List JsVal)) →
    Option (List JsVal)
  | [], _ => some []
  | x :: xs, f =>
    match f x with
    | none => none
    | some ms => (collectMsgs xs f).map fun rest => ms ++ rest

/-- The body of `parseGeminiApi`'s inner loop: `functionCall` wins, then
`functionResponse`, then (truthy, i.e. non-empty) `text`; anything else
pushes nothing. -/
def partMsgs (role : JsVal) (part : JsVal) : Option (List JsVal) :=
  if jsTruthy (jsField part (cs "functionCall")) then
    (toolCallJs (jsField part (cs "functionCall"))).map fun m => [m]
  else if jsTruthy (jsField part (cs "functionResponse")) then
    some [toolResultJs (jsField part (cs "functionResponse"))]
  else if jsTruthy (jsField part (cs "text")) then
    some [.obj [(cs "role",
      .str (if jsStrictEqStr role (cs "model") then cs "assistant"
        else cs "user")),
      (cs "content", jsField part (cs "text"))]]
  else some []

/-- One element of `parseGeminiApi`'s outer loop: `for (const part of
msg.parts)`.  A string `parts` iterates its characters, none of which has the
three properties, so nothing is pushed; any other non-array `parts` makes the
`for…of` throw (`none`). -/
def elemMsgs (elem : JsVal) : Option (List JsVal) :=
  match jsField elem (cs "parts") with
  | .arr ps => collectMsgs ps (partMsgs (jsField elem (cs "role")))
  | .str _ => some []
  | _ => none

/-- `SamplesAdapter.parseGeminiApi`. -/
def parseGeminiApi (msgs : List JsVal) : Option (List JsVal) :=
  collectMsgs msgs elemMsgs

/-- `SamplesAdapter.parseAuto`: shape auto-detection on the first element
(`first.role && first.parts` → Gemini shape; `first.role && typeof
first.content === 'string'` → pass through unchanged; anything else or a
non-array input → warn and return `[]`). -/
def parseAuto (data : JsVal) : Option JsVal :=
  match data with
  | .arr [] => some (.arr [])
  | .arr (first :: rest) =>
    if jsTruthy (jsField first (cs "role")) &&
        jsTruthy (jsField first (cs "parts")) then
      (parseGeminiApi (first :: rest)).map .arr
    else if jsTruthy (jsField first (cs "role")) &&
        isStrVal (jsField first (cs "content")) then
      some (.arr (first :: rest))
    else
      some (.arr [])
  | _ => some (.arr [])

/-! ### A typed view of the Gemini shape, for the refinement statement -/

/-- A `GeminiApiPart` (`{text?, functionCall?, functionResponse?}`).
`functionCall` carries `(name, args)`, `functionResponse` carries
`(id, name, response.output)`. -/
structure GPart where
  text : Option (List Char)
  functionCall : Option (List Char × List (List Char × JsVal))
  functionResponse : Option (List Char × List Char × List Char)

/-- A `GeminiApiMessage` (`{role, parts}`). -/
structure GMsg where
  role : List Char
  parts : List GPart

/-- The dynamic value of a part.  Absent optional fields are encoded as
explicit `undefined` values, which is observationally equivalent under
`jsField`/`jsTruthy` to omitting the key. -/
def GPart.toJs (p : GPart) : JsVal :=
  .obj [(cs "text", p.text.elim .undefined .str),
    (cs "functionCall",
      match p.functionCall with
      | none => .undefined
      | some (n, args) =>
        .obj [(cs "name", .str n), (cs "args", .obj args)]),
    (cs "functionResponse",
      match p.functionResponse with
      | none => .undefined
      | some (i, n, out) =>
        .obj [(cs "id", .str i), (cs "name", .str n),
          (cs "response", .obj [(cs "output", .str out)])])]

/-- The dynamic value of an element. -/
def GMsg.toJs (m : GMsg) : JsVal :=
  .obj [(cs "role", .str m.role), (cs "parts", .arr (m.parts.map GPart.toJs))]

/-- Modelled from the spec: the §4.3 part mapping (for the refinement
statement of claim C7, amended) — a
`functionCall` part becomes a `tool_call` message with args coerced to a
string-valued mapping; otherwise a `functionResponse` part becomes a
`tool_result` message with output taken from `response.output`; otherwise a
part with NON-EMPTY `text` becomes an `assistant` message when the element's
role is `'model'` and a `user` message otherwise; an empty or absent `text`
yields no message. -/
def specPart (role : List Char) (p : GPart) : List JsVal :=
  match p.functionCall with
  | some (n, args) =>
    [.obj [(cs "role", .str (cs "tool_call")), (cs "content", .str n),
      (cs "toolCall", .obj [(cs "name", .str n),
        (cs "args", .obj (coerceArgs args))])]]
  | none =>
    match p.functionResponse with
    | some (_, n, out) =>
      [.obj [(cs "role", .str (cs "tool_result")), (cs "content", .str out),
        (cs "toolResult", .obj [(cs "name", .str n),
          (cs "output", .str out)])]]
    | none =>
      match p.text with
      | some t =>
        if t = [] then []
        else [.obj [(cs "role",
          .str (if role = cs "model" then cs "assistant" else cs "user")),
          (cs "content", .str t)]]
      | none => []

/-- Counterexample fixture: a `role`/`parts` element whose only part has
empty text. -/
def emptyTextElem : JsVal :=
  .obj [(cs "role", .str (cs "model")),
    (cs "parts", .arr [.obj [(cs "text", .str [])]])]

/-- Counterexample fixture: a `role`/`parts` element whose role is the empty
string (falsy). -/
def emptyRoleElem : JsVal :=
  .obj [(cs "role", .str []),
    (cs "parts", .arr [.obj [(cs "text", .str (cs "hi"))]])]

/-- Counterexample fixture for pass-through: first element with empty-string
role and string content. -/
def passthroughEmptyRole : JsVal :=
  .obj [(cs "role", .str []), (cs "content", .str (cs "hi"))]

/-- Counterexample fixture for pass-through: first element that also carries
an (empty, but truthy) `parts` array. -/
def passthroughWithParts : JsVal :=
  .obj [(cs "role", .str (cs "user")), (cs "content", .str (cs "hi")),
    (cs "parts", .arr [])]

/-- Witness fixture (the spec's example 3):
`[{"role":"model","parts":[{"functionCall":{"name":"search","args":{"q":"x"}}}]}]`. -/
def searchCallMsg : GMsg :=
  ⟨cs "model", [⟨none, some (cs "search", [(cs "q", .str (cs "x"))]), none⟩]⟩

/-! ## Playback transformer and engine

The ChatContainer component that the spec's §4.5/§4.6 describe (the one
taking `conversation`/`displaySettings` props, with the keyboard-driven
cursor) is not among the source files — only its tests
(`ChatContainer.test.tsx`), its caller (`App`) and its types
(`PlaybackMessage`, `DisplaySettings` in `types/chat.ts`) are; the file at
`components/ChatContainer.tsx` is a stale demo component over a different
message model that accepts no props.  The definitions below are therefore
modelled from the spec. -/

/-- `DisplaySettings` (from `types/chat.ts`), restricted to the fields the
playback core consumes; `playbackSpeed` is a positive rational. -/
structure DisplaySettings where
  showThinking : Bool
  showToolCalls : Bool
  showToolResults : Bool
  playbackSpeed : ℚ

/-- `PlaybackMessage.role`: `UnifiedMessage.role` plus the two synthetic
roles. -/
inductive PRole where
  | user | assistant | thinking | tool_call | tool_result
  | approval | thinking_animation | subagent
  deriving DecidableEq, Repr

inductive ApprovalStatus where
  | pending | approved | rejected | ended
  deriving DecidableEq, Repr

/-- `PlaybackMessage` (from `types/chat.ts`). -/
structure PMsg where
  role : PRole
  content : List Char
  toolCall : Option ToolCall := none
  toolResult : Option ToolRes := none
  subagent : Option SubagentConversation := none
  approval : Option ApprovalStatus := none

/-- Lift a unified role into a playback role. -/
def Role.toPRole : Role → PRole
  | .user => .user
  | .assistant => .assistant
  | .thinking => .thinking
  | .tool_call => .tool_call
  | .tool_result => .tool_result
  | .subagent => .subagent

/-- Carry a unified message through unchanged. -/
def toPMsg (m : UMsg) : PMsg :=
  { role := m.role.toPRole, content := m.content, toolCall := m.toolCall,
    toolResult := m.toolResult, subagent := m.subagent }

/-- Modelled from the spec: the visibility filter of §4.5 step 1 — `thinking`
kept iff `showThinking`, `tool_call` iff `showToolCalls`, `tool_result` iff
`showToolResults`, everything else always kept. -/
def visibleUnder (s : DisplaySettings) (m : UMsg) : Bool :=
  match m.role with
  | .thinking => s.showThinking
  | .tool_call => s.showToolCalls
  | .tool_result => s.showToolResults
  | _ => true

/-- Modelled from the spec: the expansion of §4.5 step 2 — an `assistant`
message becomes a `thinking_animation` placeholder immediately followed by
the real message; a (visible) `tool_call` becomes a pending `approval` step
immediately followed by the real message; everything else is one step
unchanged. -/
def expandMessage (m : UMsg) : List PMsg :=
  match m.role with
  | .assistant => [{ role := .thinking_animation, content := [] }, toPMsg m]
  | .tool_call =>
    [{ role := .approval, content := m.content, toolCall := m.toolCall,
       approval := some .pending }, toPMsg m]
  | _ => [toPMsg m]

/-- Modelled from the spec: the Playback Transformer of §4.5 — filter by the
display settings FIRST, then expand each remaining message in order.  (The
missing ChatContainer's `transformChatHistory`.) -/
def transformChatHistory (msgs : List UMsg) (s : DisplaySettings) :
    List PMsg :=
  (msgs.filter (visibleUnder s)).flatMap expandMessage

/-- Fixtures for the transformer witness: one message of each filterable
role plus a user message, and settings with every visibility toggle off. -/
def demoMsgs : List UMsg :=
  [UMsg.simple Role.user (cs "hi"),
   UMsg.simple Role.thinking (cs "hmm"),
   UMsg.mk Role.tool_call (cs "bash") (some ⟨cs "bash", []⟩) none none,
   UMsg.mk Role.tool_result (cs "ok") none (some ⟨cs "bash", cs "ok"⟩) none,
   UMsg.simple Role.assistant (cs "done")]

def demoSettingsOff : DisplaySettings :=
  { showThinking := false, showToolCalls := false, showToolResults := false,
    playbackSpeed := 1 }

/-- Modelled from the spec: the single-step delay table of §4.6 —
`user` = 800 ms, `thinking` = 1500 ms, `tool_result` = 300 ms, default
500 ms (the pair delays are in `scheduleWaits`). -/
def baseDelay : PRole → ℚ
  | .user => 800
  | .thinking => 1500
  | .tool_result => 300
  | _ => 500

/-- Modelled from the spec: the sequence of waits of continuous playback
(§4.6) — a `thinking_animation` placeholder waits 2000 ms and its resolution
to the following real message waits 1000 ms more; an `approval` waits
2500 ms pending, 2000 ms approved and 500 ms to settle; a single step waits
its `baseDelay`; every wait is divided by `playbackSpeed`. -/
def scheduleWaits (speed : ℚ) : List PMsg → List ℚ
  | [] => []
  | m :: rest =>
    if m.role = PRole.thinking_animation then
      match rest with
      | _ :: rest' =>
        2000 / speed :: 1000 / speed :: scheduleWaits speed rest'
      | [] => [2000 / speed]
    else if m.role = PRole.approval then
      match rest with
      | _ :: rest' =>
        2500 / speed :: 2000 / speed :: 500 / speed ::
          scheduleWaits speed rest'
      | [] => [2500 / speed]
    else baseDelay m.role / speed :: scheduleWaits speed rest

/-- A bare `thinking_animation` placeholder step. -/
def animMsg : PMsg := { role := .thinking_animation, content := [] }

/-- A bare pending `approval` step. -/
def approvalMsg : PMsg :=
  { role := .approval, content := [], approval := some .pending }

/-! ### The pause/resume discipline of the engine (§4.6, §5) -/

/-- The observable engine state: the cursor, the indices displayed so far in
display order, whether playback is paused, and whether a scheduled timer is
still valid (pausing invalidates it). -/
structure EngineState where
  cursor : Nat
  displayed : List Nat
  paused : Bool
  timerValid : Bool

/-- The engine events of continuous playback under user control. -/
inductive EngineCmd where
  | tick | pause | resume
  deriving DecidableEq, Repr

/-- Modelled from the spec: one engine transition of §4.6/§5 over an
expanded sequence of length `n`.  A timer firing after a pause (cleared or
stale timer) is a no-op; a valid tick displays the step at the cursor and
advances it; `pause` clears the pending timer; `resume` reschedules from the
exact cursor position. -/
def engineStep (n : Nat) (st : EngineState) : EngineCmd → EngineState
  | .tick =>
    if st.paused || !st.timerValid then st
    else if st.cursor < n then
      { cursor := st.cursor + 1, displayed := st.displayed ++ [st.cursor],
        paused := st.paused, timerValid := st.timerValid }
    else st
  | .pause =>
    { cursor := st.cursor, displayed := st.displayed, paused := true,
      timerValid := false }
  | .resume =>
    { cursor := st.cursor, displayed := st.displayed, paused := false,
      timerValid := true }

/-- The initial engine state at the start of playback. -/
def engineInit : EngineState :=
  { cursor := 0, displayed := [], paused := false, timerValid := true }

/-- Run the engine over a sequence of events. -/
def engineRun (n : Nat) (cmds : List EngineCmd) : EngineState :=
  cmds.foldl (engineStep n) engineInit

/-- The first alternative of `extractUserContent` applies: the text contains a
complete `<user_query>…</user_query>` region. -/
def hasUserQueryRegion (s : List Char) : Bool :=
  (matchRegion (openTag (cs "user_query")) (closeTag (cs "user_query"))
    s).isSome

/-- The text contains a complete `<tag>…</tag>` region. -/
def hasTagRegion (tag s : List Char) : Bool :=
  (matchRegion (openTag tag) (closeTag tag) s).isSome

theorem findSub_nil_of_ne {pat : List Char} (hp : pat ≠ []) :
    findSub pat [] = none := by
  cases pat with
  | nil => exact absurd rfl hp
  | cons a t => simp [findSub, startsWith, List.isPrefixOf]

/-- A successful `matchRegion` with a non-empty opening tag strictly shrinks
the remainder, so `stripTagGo`'s fuel of `s.length` never runs out. -/
theorem matchRegion_after_lt {openT closeT s pre inn post : List Char}
    (ho : openT ≠ [])
    (h : matchRegion openT closeT s = some (pre, inn, post)) :
    post.length < s.length := by
  unfold matchRegion at h
  cases hfo : findSub openT s with
  | none => rw [hfo] at h; exact absurd h (by simp)
  | some i =>
    rw [hfo] at h
    cases hfc : findSub closeT (s.drop (i + openT.length)) with
    | none => simp only [Option.some_bind, hfc, Option.map_none'] at h; cases h
    | some j =>
      simp only [Option.some_bind, hfc, Option.map_some', Option.some.injEq,
        Prod.mk.injEq] at h
      obtain ⟨-, -, hpost⟩ := h
      subst hpost
      have hslen : s ≠ [] := by
        intro hnil
        subst hnil
        rw [findSub_nil_of_ne ho] at hfo
        cases hfo
      have h1 : 1 ≤ openT.length := by
        cases openT with
        | nil => exact absurd rfl ho
        | cons a t => simp
      have h2 : 1 ≤ s.length := by
        cases s with
        | nil => exact absurd rfl hslen
        | cons a t => simp
      simp only [List.length_drop]
      omega

theorem stripTagGo_of_none {tag s : List Char} (fuel : Nat)
    (h : matchRegion (openTag tag) (closeTag tag) s = none) :
    stripTagGo tag fuel s = s := by
  cases fuel with
  | zero => rfl
  | succ n => simp [stripTagGo, h]

theorem stripTagRegions_of_not_hasRegion {tag s : List Char}
    (h : hasTagRegion tag s = false) : stripTagRegions tag s = s := by
  unfold stripTagRegions
  refine stripTagGo_of_none _ ?_
  unfold hasTagRegion at h
  exact Option.not_isSome_iff_eq_none.mp (by simp [h])

theorem foldl_stripTag_fixed {s : List Char} {tags : List (List Char)}
    (h : ∀ tag ∈ tags, stripTagRegions tag s = s) :
    tags.foldl (fun acc tag => stripTagRegions tag acc) s = s := by
  induction tags with
  | nil => rfl
  | cons t rest ih =>
    have ht : stripTagRegions t s = s := h t (by simp)
    simp only [List.foldl_cons, ht]
    exact ih fun tag hmem => h tag (by simp [hmem])

theorem trimRight_eq_rdropWhile (s : List Char) :
    trimRight s = s.rdropWhile isWs := rfl

theorem trimLeft_trimRight_of_fixed {u : List Char}
    (h : trimLeft u = u) : trimLeft (trimRight u) = trimRight u := by
  cases hv : trimRight u with
  | nil => rfl
  | cons c v' =>
    have hpre : trimRight u <+: u := List.rdropWhile_prefix isWs u
    obtain ⟨t, ht⟩ := hpre
    have hu : u = c :: (v' ++ t) := by rw [← ht, hv]; rfl
    have hc : isWs c = false := by
      by_contra hcc
      have hcw : isWs c = true := by simpa using hcc
      rw [hu] at h
      simp only [trimLeft, List.dropWhile_cons, hcw, if_true] at h
      have hlen := congrArg List.length h
      have hle : (List.dropWhile isWs (v' ++ t)).length ≤ (v' ++ t).length :=
        (List.dropWhile_sublist _).length_le
      simp only [List.length_cons] at hlen
      omega
    simp [trimLeft, List.dropWhile_cons, hc]

/-- `trim` is idempotent. -/
theorem trim_idem (s : List Char) : trim (trim s) = trim s := by
  have h1 : trimLeft (trimLeft s) = trimLeft s :=
    List.dropWhile_idempotent isWs s
  show trimRight (trimLeft (trimRight (trimLeft s))) = trimRight (trimLeft s)
  rw [trimLeft_trimRight_of_fixed h1]
  rw [trimRight_eq_rdropWhile, trimRight_eq_rdropWhile,
    List.rdropWhile_idempotent]

/-- `extractUserContent` always returns a trimmed string. -/
theorem extractUserContent_trimmed (x : List Char) :
    trim (extractUserContent x) = extractUserContent x := by
  unfold extractUserContent
  cases matchRegion (openTag (cs "user_query")) (closeTag (cs "user_query"))
      x with
  | none => exact trim_idem _
  | some r => exact trim_idem _

/-- C2 (counterexample).  The user-content extraction step of
`CursorAdapter.extractUserContent` is NOT idempotent, and it CAN remove
user-authored prose lying outside the named wrapper tags.
First conjunct: on `"<user_query>hi <rules>r</rules> bye</user_query>"` the
first application returns `"hi <rules>r</rules> bye"` (the inner text of the
user_query region, which still contains a complete `<rules>` region), and a
second application strips that region, yielding `"hi  bye"`.
Second conjunct: on `" hello <user_query>q</user_query>"` the prose
`"hello"`, which lies outside every named tag, is discarded because the
user_query branch keeps only the tagged region's inner text. -/
theorem extractUserContent_not_idempotent :
    extractUserContent
        (extractUserContent
          (cs "<user_query>hi <rules>r</rules> bye</user_query>")) ≠
      extractUserContent
        (cs "<user_query>hi <rules>r</rules> bye</user_query>") ∧
    extractUserContent (cs " hello <user_query>q</user_query>") = cs "q" := by
  constructor
  · decide
  · decide

/-- C2 (amended).  Applying the user-content extraction step twice yields the
same result as applying it once, PROVIDED the result of the first application
contains no complete `<user_query>…</user_query>` region and no complete
region of any named wrapper tag.  (Without the proviso a second application
can strip further, and the user_query branch discards prose outside the
tagged region, as the counterexample shows.) -/
theorem extractUserContent_idem_of_tagFree (x : List Char)
    (h1 : hasUserQueryRegion (extractUserContent x) = false)
    (h2 : ∀ tag ∈ tagsToStrip,
      hasTagRegion tag (extractUserContent x) = false) :
    extractUserContent (extractUserContent x) = extractUserContent x := by
  have hnone : matchRegion (openTag (cs "user_query"))
      (closeTag (cs "user_query")) (extractUserContent x) = none := by
    unfold hasUserQueryRegion at h1
    exact Option.not_isSome_iff_eq_none.mp (by simp [h1])
  conv_lhs => rw [extractUserContent]
  rw [hnone]
  rw [foldl_stripTag_fixed
    (fun tag hmem => stripTagRegions_of_not_hasRegion (h2 tag hmem))]
  exact extractUserContent_trimmed x

theorem parseJsonlLoop_eq (p : List Char → Option JsVal)
    (ls : List (List Char)) (acc : List UMsg) :
    parseJsonlLoop p ls acc =
      acc ++ ls.filterMap fun l => (p l).bind recordMessage := by
  induction ls generalizing acc with
  | nil => simp [parseJsonlLoop]
  | cons l rest ih =>
    cases h : (p l).bind recordMessage with
    | some m =>
      have hstep : parseJsonlLoop p (l :: rest) acc =
          parseJsonlLoop p rest (acc ++ [m]) := by
        conv_lhs => unfold parseJsonlLoop
        rw [h]
      rw [hstep, ih, List.filterMap_cons]
      simp [h]
    | none =>
      have hstep : parseJsonlLoop p (l :: rest) acc =
          parseJsonlLoop p rest acc := by
        conv_lhs => unfold parseJsonlLoop
        rw [h]
      rw [hstep, ih, List.filterMap_cons]
      simp [h]

theorem filterMap_filter_eq_of_none {α β : Type _} (f : α → Option β)
    (q : α → Bool) (ls : List α) (h : ∀ l, q l = false → f l = none) :
    (ls.filter q).filterMap f = ls.filterMap f := by
  induction ls with
  | nil => rfl
  | cons l rest ih =>
    by_cases hq : q l
    · simp [List.filter_cons, hq, List.filterMap_cons, ih]
    · have hf : f l = none := h l (by simpa using hq)
      simp [List.filter_cons, hq, List.filterMap_cons, hf, ih]

/-- C1: for every input text viewed as a sequence of lines (under any JSON
parser `p`, where a line parses iff `p` returns `some` — blank lines never
parse), `CursorAdapter.parseJsonlTranscript` emits exactly the messages
derivable from the valid lines via `recordMessage`, in original line order
(`List.filterMap` over the split lines): no valid line's message is omitted
and an invalid line (`p l = none`, skipped by the `catch`) neither aborts the
parse nor loses any subsequent valid line. -/
theorem parseJsonlTranscript_eq_filterMap (p : List Char → Option JsVal)
    (content : List Char) (hp : ∀ l, trim l = [] → p l = none) :
    parseJsonlTranscript p content =
      (splitOnChar '\n' (trim content)).filterMap
        fun l => (p l).bind recordMessage := by
  unfold parseJsonlTranscript
  rw [parseJsonlLoop_eq]
  simp only [List.nil_append]
  apply filterMap_filter_eq_of_none
  intro l hq
  have hl : trim l = [] := by
    cases htl : trim l with
    | nil => rfl
    | cons a t => rw [htl] at hq; simp at hq
  rw [hp l hl]
  rfl

/-- C1 (witness): the transcript `"x\nnot json\nx"` under `jsonlOracle` — the
middle line is invalid JSON, the parse still emits both valid lines'
messages in order. -/
theorem parseJsonlTranscript_eq_filterMap_witness :
    parseJsonlTranscript jsonlOracle (cs "x\nnot json\nx") =
      (splitOnChar '\n' (trim (cs "x\nnot json\nx"))).filterMap
        (fun l => (jsonlOracle l).bind recordMessage) ∧
    (parseJsonlTranscript jsonlOracle (cs "x\nnot json\nx")).map UMsg.content =
      [cs "hello", cs "hello"] :=
  ⟨parseJsonlTranscript_eq_filterMap jsonlOracle (cs "x\nnot json\nx")
    (by
      intro l hl
      by_cases hx : l = cs "x"
      · rw [hx] at hl; exact absurd hl (by decide)
      · simp [jsonlOracle, hx]),
   by decide⟩

/-- C9: the JSONL parser maps a record's emitted role to `assistant` exactly
when the record's `role` field strictly equals the string `"assistant"`
(`user` in every other case — other strings, non-strings, or absent), and the
parser never emits any role besides `user` and `assistant`. -/
theorem parseJsonlTranscript_role_mapping :
    (∀ (entry : JsVal) (m : UMsg), recordMessage entry = some m →
      ((m.role = Role.assistant ↔
        jsField entry (cs "role") = JsVal.str (cs "assistant")) ∧
       (m.role = Role.assistant ∨ m.role = Role.user))) ∧
    ∀ (p : List Char → Option JsVal) (content : List Char)
      (m : UMsg), m ∈ parseJsonlTranscript p content →
        m.role = Role.assistant ∨ m.role = Role.user := by
  have hstr : ∀ (entry : JsVal),
      jsStrictEqStr (jsField entry (cs "role")) (cs "assistant") = true ↔
        jsField entry (cs "role") = JsVal.str (cs "assistant") := by
    intro entry
    cases hf : jsField entry (cs "role") <;> simp [jsStrictEqStr]
  have hrec : ∀ (entry : JsVal) (m : UMsg), recordMessage entry = some m →
      ((m.role = Role.assistant ↔
        jsField entry (cs "role") = JsVal.str (cs "assistant")) ∧
       (m.role = Role.assistant ∨ m.role = Role.user)) := by
    intro entry m hm
    unfold recordMessage at hm
    split at hm
    · split at hm
      · cases hm
      · split at hm
        · rename_i hassistant
          split at hm
          · cases hm
          · cases hm
            exact ⟨⟨fun _ => (hstr entry).mp hassistant, fun _ => rfl⟩,
              Or.inl rfl⟩
        · rename_i hassistant
          split at hm
          · cases hm
          · cases hm
            refine ⟨⟨fun hr => Role.noConfusion hr, fun hfield => ?_⟩,
              Or.inr rfl⟩
            exact absurd ((hstr entry).mpr hfield) (by simp [hassistant])
    · cases hm
  refine ⟨hrec, ?_⟩
  intro p content m hmem
  rw [parseJsonlTranscript] at hmem
  rw [parseJsonlLoop_eq, List.nil_append] at hmem
  obtain ⟨l, -, hl⟩ := List.mem_filterMap.mp hmem
  cases hp : p l with
  | none => rw [hp] at hl; cases hl
  | some entry =>
    rw [hp, Option.some_bind] at hl
    exact (hrec entry m hl).2

/-- C9 (witness): a concrete record with `role = "assistant"` yields an
assistant message, and the parsed transcript contains only user/assistant
roles. -/
theorem parseJsonlTranscript_role_mapping_witness :
    ((jsonlMsg.role = Role.assistant ↔
      jsField jsonlOracle.jsonlEntry (cs "role") =
        JsVal.str (cs "assistant")) ∧
     (jsonlMsg.role = Role.assistant ∨ jsonlMsg.role = Role.user)) ∧
    (jsonlMsg.role = Role.assistant ∨ jsonlMsg.role = Role.user) :=
  ⟨parseJsonlTranscript_role_mapping.1 jsonlOracle.jsonlEntry jsonlMsg rfl,
   parseJsonlTranscript_role_mapping.2 jsonlOracle (cs "x") jsonlMsg
     (show jsonlMsg ∈ [jsonlMsg] from List.mem_singleton.mpr rfl)⟩

theorem startsWith_append_of_le {p q : List Char} (t : List Char)
    (hle : p.length ≤ q.length) :
    startsWith p (q ++ t) = startsWith p q := by
  unfold startsWith
  rw [Bool.eq_iff_iff, List.isPrefixOf_iff_prefix, List.isPrefixOf_iff_prefix,
    List.prefix_iff_eq_take, List.prefix_iff_eq_take,
    List.take_append_of_le_length hle]

/-- C8: inside an assistant block, a line beginning with `[Tool result]`
makes `CursorAdapter.parseAssistantBlock` immediately emit (after flushing
any accumulated plain assistant text) exactly one `tool_result` message whose
`toolResult.output` is the fixed placeholder `"(completed)"` and whose
`toolResult.name` is the trimmed text after the marker — the empty string
when no label follows (`t = []`) — before continuing with the next line. -/
theorem parseAssistantBlock_toolResult (fuel : Nat) (t : List Char)
    (rest : List (List Char)) (acc : List (List Char)) :
    parseABGo (fuel + 1) ((cs "[Tool result]" ++ t) :: rest) acc =
      (flushAssistant acc ++
        UMsg.mk Role.tool_result
          (if trim t = [] then cs "(completed)" else trim t)
          none (some ⟨trim t, cs "(completed)"⟩) none ::
        (parseABGo fuel rest []).1,
       (parseABGo fuel rest []).2) := by
  have hne1 : ¬ (cs "[Tool result]" ++ t = cs "user:" ∨
      cs "[Tool result]" ++ t = cs "assistant:") := by
    rintro (heq | heq) <;>
      {
        have hlen := congrArg List.length heq
        rw [List.length_append] at hlen
        first
        | rw [show (cs "[Tool result]").length = 13 from rfl,
            show (cs "user:").length = 5 from rfl] at hlen
        | rw [show (cs "[Tool result]").length = 13 from rfl,
            show (cs "assistant:").length = 10 from rfl] at hlen
        omega
      }
  have hth : startsWith (cs "[Thinking]") (cs "[Tool result]" ++ t) =
      false := by
    rw [startsWith_append_of_le t (by decide)]
    decide
  have htc : startsWith (cs "[Tool call]") (cs "[Tool result]" ++ t) =
      false := by
    rw [startsWith_append_of_le t (by decide)]
    decide
  have htr : startsWith (cs "[Tool result]") (cs "[Tool result]" ++ t) =
      true := by
    unfold startsWith
    rw [List.isPrefixOf_iff_prefix]
    exact List.prefix_append _ t
  simp only [parseABGo]
  rw [if_neg hne1, if_neg (by simp [hth]), if_neg (by simp [htc]),
    if_pos htr, List.drop_left]
  simp

theorem firstRefIdx_eq_some {res : List UMsg} {idx : Nat}
    (h : firstRefIdx res = some idx) :
    ∃ pre m post, res = pre ++ m :: post ∧ pre.length = idx ∧
      (∀ x ∈ pre, isSubagentRef x = false) ∧ isSubagentRef m = true := by
  induction res generalizing idx with
  | nil => cases h
  | cons m rest ih =>
    by_cases hm : isSubagentRef m
    · rw [firstRefIdx, if_pos hm] at h
      cases h
      refine ⟨[], m, rest, rfl, rfl, ?_, hm⟩
      intro x hx
      cases hx
    · rw [firstRefIdx, if_neg hm] at h
      cases hrest : firstRefIdx rest with
      | none => rw [hrest] at h; cases h
      | some idx' =>
        rw [hrest, Option.map_some'] at h
        cases h
        obtain ⟨pre, m', post, hres, hlen, hpre, hm'⟩ := ih hrest
        refine ⟨m :: pre, m', post, by rw [hres]; rfl, by simp [hlen], ?_, hm'⟩
        intro x hx
        rcases List.mem_cons.mp hx with rfl | hxp
        · simpa using hm
        · exact hpre x hxp

theorem mem_take_append {pre post : List UMsg} (m : UMsg) (n : Nat)
    (h : pre.length < n) : m ∈ (pre ++ m :: post).take n := by
  induction pre generalizing n with
  | nil =>
    cases n with
    | zero => omega
    | succ n' => simp [List.take_cons]
  | cons p pre' ih =>
    cases n with
    | zero => omega
    | succ n' =>
      simp only [List.cons_append, List.take_cons, List.mem_cons]
      right
      exact ih n' (by simpa using h)

theorem insertAt_length (idx : Nat) (a : UMsg) (xs : List UMsg) :
    (insertAt idx a xs).length = xs.length + 1 := by
  induction idx generalizing xs with
  | zero => rfl
  | succ n ih =>
    cases xs with
    | nil => rfl
    | cons x xs' => simp [insertAt, ih]

theorem insertAt_take_le {idx j : Nat} (a : UMsg) {xs : List UMsg}
    (hj : j ≤ idx) (hidx : idx ≤ xs.length) :
    (insertAt idx a xs).take j = xs.take j := by
  induction idx generalizing xs j with
  | zero =>
    interval_cases j
    rfl
  | succ n ih =>
    cases xs with
    | nil => simp at hidx
    | cons x xs' =>
      cases j with
      | zero => rfl
      | succ j' =>
        simp only [insertAt, List.take_cons, List.take_succ_cons]
        rw [ih (by omega) (by simpa using hidx)]

theorem insertAt_take_succ_self {idx : Nat} (a : UMsg) {xs : List UMsg}
    (hidx : idx ≤ xs.length) :
    (insertAt idx a xs).take (idx + 1) = xs.take idx ++ [a] := by
  induction idx generalizing xs with
  | zero => rfl
  | succ n ih =>
    cases xs with
    | nil => simp at hidx
    | cons x xs' =>
      simp only [insertAt, List.take_succ_cons]
      rw [ih (by simpa using hidx)]
      rfl

/-- The `placed` guard of `placeSubagents` never fires: every recorded index
lies strictly before the next match, because the messages up to and including
a recorded index never satisfy the scan predicate afterwards. -/
theorem placeFold_eq (subs : List SubagentConversation) :
    ∀ (res : List UMsg) (placed : List Nat),
      (∀ k ∈ placed, k < res.length ∧
        ∀ x ∈ res.take (k + 1), isSubagentRef x = false) →
      (subs.foldl placeStep (res, placed)).1 =
        subs.foldl
          (fun r sub => insertBeforeFirstRef r (subagentMsg sub)) res := by
  induction subs with
  | nil => intro res placed _; rfl
  | cons sub subs ih =>
    intro res placed hI
    simp only [List.foldl_cons]
    cases hfind : firstRefIdx res with
    | none =>
      have hstep : placeStep (res, placed) sub =
          (res ++ [subagentMsg sub], placed) := by
        unfold placeStep; rw [hfind]
      have hsimple : insertBeforeFirstRef res (subagentMsg sub) =
          res ++ [subagentMsg sub] := by
        unfold insertBeforeFirstRef; rw [hfind]
      rw [hstep, hsimple]
      apply ih
      intro k hk
      obtain ⟨hklt, hktake⟩ := hI k hk
      refine ⟨by simp; omega, ?_⟩
      rw [List.take_append_of_le_length (by omega)]
      exact hktake
    | some idx =>
      obtain ⟨pre, m, post, hres, hlen, hpre, hm⟩ := firstRefIdx_eq_some hfind
      have hidxlt : idx < res.length := by
        rw [hres]; simp; omega
      have hnotmem : idx ∉ placed := by
        intro hmem
        obtain ⟨-, hktake⟩ := hI idx hmem
        have hmm : m ∈ res.take (idx + 1) := by
          rw [hres]
          exact mem_take_append m (idx + 1) (by omega)
        have hcontra : isSubagentRef m = false := hktake m hmm
        rw [hm] at hcontra; cases hcontra
      have hstep : placeStep (res, placed) sub =
          (insertAt idx (subagentMsg sub) res, idx :: placed) := by
        simp [placeStep, hfind, hnotmem]
      have hsimple : insertBeforeFirstRef res (subagentMsg sub) =
          insertAt idx (subagentMsg sub) res := by
        unfold insertBeforeFirstRef; rw [hfind]
      rw [hstep, hsimple]
      apply ih
      intro k hk
      rcases List.mem_cons.mp hk with rfl | hkold
      · refine ⟨by rw [insertAt_length]; omega, ?_⟩
        rw [insertAt_take_succ_self (subagentMsg sub) (by omega)]
        intro x hx
        rcases List.mem_append.mp hx with hx1 | hx2
        · have hpre_take : res.take k = pre := by
            rw [hres, ← hlen]
            exact List.take_left pre (m :: post)
          rw [hpre_take] at hx1
          exact hpre x hx1
        · simp only [List.mem_singleton] at hx2
          subst hx2
          rfl
      · obtain ⟨hklt, hktake⟩ := hI k hkold
        have hkidx : k < idx := by
          by_contra hc
          push_neg at hc
          have hmm : m ∈ res.take (k + 1) := by
            rw [hres]
            exact mem_take_append m (k + 1) (by omega)
          have hcontra : isSubagentRef m = false := hktake m hmm
          rw [hm] at hcontra; cases hcontra
        refine ⟨by rw [insertAt_length]; omega, ?_⟩
        rw [insertAt_take_le (subagentMsg sub) (by omega) (by omega)]
        exact hktake

/-- C3 (counterexample).  The claim's no-reuse conjunct fails: with a single
parent message `refMsg` whose content mentions `"subagent"` and two
discovered subagents, BOTH wrapped subagent messages are spliced in
immediately before that same parent message — the insertion slot before
`refMsg` is used for the first subagent and reused for the second (the
recorded index `0` does not block the second insertion, which happens at
index `1` after everything shifted).  The remaining conjuncts identify
`refMsg` as the only scan match. -/
theorem placeSubagents_slot_reuse :
    placeSubagents [refMsg] [subOne, subTwo] =
      [subagentMsg subOne, subagentMsg subTwo, refMsg] ∧
    isSubagentRef refMsg = true ∧
    isSubagentRef (subagentMsg subOne) = false ∧
    isSubagentRef (subagentMsg subTwo) = false := by
  refine ⟨rfl, by decide, rfl, rfl⟩

/-- C3 (amended).  Each subagent, in creation order, is spliced in by finding
the first non-subagent message (in the current, already-spliced sequence)
whose content contains `"subagent"` case-insensitively and inserting the
wrapped message immediately before it, appending at the end when no such
message exists; the recorded-index guard never forces an append and in
particular never prevents a later subagent from being inserted immediately
before the same original message as an earlier one. -/
theorem placeSubagents_eq_simple (messages : List UMsg)
    (subagents : List SubagentConversation) :
    placeSubagents messages subagents =
      placeSubagentsSimple messages subagents :=
  placeFold_eq subagents messages [] (by intro k hk; cases hk)

theorem collectMsgs_map_eq {α : Type _} (xs : List α) (h : α → JsVal)
    (f : JsVal → Option (List JsVal)) (g : α → List JsVal)
    (hf : ∀ a ∈ xs, f (h a) = some (g a)) :
    collectMsgs (xs.map h) f = some (xs.flatMap g) := by
  induction xs with
  | nil => rfl
  | cons a rest ih =>
    simp only [List.map_cons, collectMsgs, hf a (by simp)]
    rw [ih fun b hb => hf b (by simp [hb])]
    simp

theorem partMsgs_toJs (role : List Char) (p : GPart) :
    partMsgs (.str role) (GPart.toJs p) = some (specPart role p) := by
  obtain ⟨t, fc, fr⟩ := p
  cases fc with
  | some nargs =>
    obtain ⟨n, args⟩ := nargs
    rfl
  | none =>
    cases fr with
    | some infr =>
      obtain ⟨i, n, out⟩ := infr
      rfl
    | none =>
      cases t with
      | none => rfl
      | some tt =>
        by_cases ht : tt = []
        · subst ht; rfl
        · have e1 : (cs "functionCall" == cs "text") = false := rfl
          have e2 : (cs "functionResponse" == cs "text") = false := rfl
          have e3 : (cs "functionResponse" == cs "functionCall") = false :=
            rfl
          have e4 : (cs "text" == cs "text") = true := rfl
          simp [partMsgs, GPart.toJs, specPart, jsField, List.lookup,
            jsTruthy, jsStrictEqStr, e1, e2, e3, e4, ht]

theorem elemMsgs_toJs (m : GMsg) :
    elemMsgs (GMsg.toJs m) = some (m.parts.flatMap (specPart m.role)) := by
  unfold elemMsgs
  rw [show jsField (GMsg.toJs m) (cs "parts") =
    .arr (m.parts.map GPart.toJs) from rfl]
  exact collectMsgs_map_eq m.parts GPart.toJs _ (specPart m.role)
    fun p _ => by
      rw [show jsField (GMsg.toJs m) (cs "role") = .str m.role from rfl]
      exact partMsgs_toJs m.role p

theorem parseGeminiApi_toJs (gmsgs : List GMsg) :
    parseGeminiApi (gmsgs.map GMsg.toJs) =
      some (gmsgs.flatMap fun m => m.parts.flatMap (specPart m.role)) := by
  unfold parseGeminiApi
  exact collectMsgs_map_eq gmsgs GMsg.toJs _ _ fun m _ => elemMsgs_toJs m

/-- C7 (amended).  For every non-empty array of `role`/`parts` elements whose
first element's role is truthy (a non-empty string), the structured-export
parser maps each part as follows: a `functionCall` part becomes a `tool_call`
message whose args are coerced to a string-valued mapping; otherwise a
`functionResponse` part becomes a `tool_result` message whose output is taken
from `response.output`; otherwise a part with non-empty `text` becomes an
`assistant` message when the element's role is `'model'` and a `user` message
otherwise (a part with empty or absent text yields no message); and an empty
input array yields an empty output rather than an error. -/
theorem parseAuto_gemini (g : GMsg) (gs : List GMsg) (hrole : g.role ≠ []) :
    parseAuto (.arr ((g :: gs).map GMsg.toJs)) =
      some (.arr ((g :: gs).flatMap fun m =>
        m.parts.flatMap (specPart m.role))) ∧
    parseAuto (.arr []) = some (.arr []) := by
  refine ⟨?_, rfl⟩
  have hgem := parseGeminiApi_toJs (g :: gs)
  simp only [List.map_cons] at hgem ⊢
  rw [parseAuto]
  rw [show jsField (GMsg.toJs g) (cs "role") = .str g.role from rfl,
    show jsField (GMsg.toJs g) (cs "parts") =
      .arr (g.parts.map GPart.toJs) from rfl]
  simp only [jsTruthy, hgem]
  simp [hrole]

/-- C7 (counterexample).  The claim as stated fails: an element
`{role:"model", parts:[{text:""}]}` has a text part, but the parser emits no
message for it (empty strings are falsy, so `else if (part.text)` skips it);
and an element whose `role` is the empty string (falsy) defeats the shape
detection, so `{role:"", parts:[{text:"hi"}]}` yields `[]` instead of a
`user` message. -/
theorem parseAuto_gemini_counterexample :
    parseAuto (.arr [emptyTextElem]) = some (.arr []) ∧
    parseAuto (.arr [emptyRoleElem]) = some (.arr []) :=
  ⟨rfl, rfl⟩

/-- C7 (witness): the spec's example 3 —
`[{"role":"model","parts":[{"functionCall":{"name":"search","args":{"q":"x"}}}]}]`
parses to exactly one `tool_call` message for `search` with args `{q:"x"}`. -/
theorem parseAuto_gemini_witness :
    parseAuto (.arr ([searchCallMsg].map GMsg.toJs)) =
      some (.arr ([searchCallMsg].flatMap fun m =>
        m.parts.flatMap (specPart m.role))) ∧
    ([searchCallMsg].flatMap fun m =>
        m.parts.flatMap (specPart m.role)) =
      [.obj [(cs "role", .str (cs "tool_call")),
        (cs "content", .str (cs "search")),
        (cs "toolCall", .obj [(cs "name", .str (cs "search")),
          (cs "args", .obj [(cs "q", .str (cs "x"))])])]] :=
  ⟨(parseAuto_gemini searchCallMsg [] (by decide)).1, rfl⟩

/-- C10 (amended).  For every non-empty array whose FIRST element has a
truthy `role` field, a string-valued `content` field, and no truthy `parts`
field, the structured-export parser returns the entire array unchanged:
shape auto-detection inspects only the first element, so the elements after
the first are passed through without being validated against either known
shape. -/
theorem parseAuto_passthrough (first : JsVal) (rest : List JsVal)
    (hrole : jsTruthy (jsField first (cs "role")) = true)
    (hparts : jsTruthy (jsField first (cs "parts")) = false)
    (hcontent : isStrVal (jsField first (cs "content")) = true) :
    parseAuto (.arr (first :: rest)) = some (.arr (first :: rest)) := by
  rw [parseAuto, hrole, hparts, hcontent]
  simp

/-- C10 (counterexample).  The claim as stated fails on two first elements
that do have a `role` field and a string `content` field:
`{role:"", content:"hi"}` (role falsy, detection fails, result `[]`) and
`{role:"user", content:"hi", parts:[]}` (an empty `parts` array is truthy, so
the Gemini branch wins and returns `[]`); in neither case is the array passed
through unchanged. -/
theorem parseAuto_not_passthrough :
    parseAuto (.arr [passthroughEmptyRole]) ≠
      some (.arr [passthroughEmptyRole]) ∧
    parseAuto (.arr [passthroughWithParts]) ≠
      some (.arr [passthroughWithParts]) := by
  constructor
  · intro h
    rw [show parseAuto (.arr [passthroughEmptyRole]) = some (.arr [])
      from rfl] at h
    simp [passthroughEmptyRole] at h
  · intro h
    rw [show parseAuto (.arr [passthroughWithParts]) = some (.arr [])
      from rfl] at h
    simp [passthroughWithParts] at h

/-- C10 (witness): a two-element array whose first element passes the
pass-through detection and whose second element is the number `5` — not a
valid message at all — is returned unchanged. -/
theorem parseAuto_passthrough_witness :
    parseAuto (.arr [.obj [(cs "role", .str (cs "user")),
        (cs "content", .str (cs "hi"))], .num 5]) =
      some (.arr [.obj [(cs "role", .str (cs "user")),
        (cs "content", .str (cs "hi"))], .num 5]) :=
  parseAuto_passthrough _ _ rfl rfl rfl

theorem expandMessage_role_origin (u : UMsg) (m : PMsg)
    (hm : m ∈ expandMessage u) :
    (m.role = PRole.thinking → u.role = Role.thinking) ∧
    (m.role = PRole.tool_call → u.role = Role.tool_call) ∧
    (m.role = PRole.tool_result → u.role = Role.tool_result) := by
  cases hu : u.role <;>
  · simp only [expandMessage, hu, List.mem_cons, List.mem_singleton,
      List.not_mem_nil, or_false] at hm
    first
    | obtain rfl | rfl := hm
    | obtain rfl := hm
    all_goals simp [toPMsg, Role.toPRole, hu]

/-- C6: for every unified message sequence and every `DisplaySettings`
value, the playback transformer (which filters before pair expansion by
construction) removes `thinking` messages when `showThinking` is false,
`tool_call` messages when `showToolCalls` is false, and `tool_result`
messages when `showToolResults` is false: no message of the corresponding
role ever appears in the transformed output. -/
theorem transformChatHistory_visibility (msgs : List UMsg)
    (s : DisplaySettings) :
    (s.showThinking = false →
      ∀ m ∈ transformChatHistory msgs s, m.role ≠ PRole.thinking) ∧
    (s.showToolCalls = false →
      ∀ m ∈ transformChatHistory msgs s, m.role ≠ PRole.tool_call) ∧
    (s.showToolResults = false →
      ∀ m ∈ transformChatHistory msgs s, m.role ≠ PRole.tool_result) := by
  have main : ∀ m ∈ transformChatHistory msgs s,
      ∃ u, visibleUnder s u = true ∧
        ((m.role = PRole.thinking → u.role = Role.thinking) ∧
         (m.role = PRole.tool_call → u.role = Role.tool_call) ∧
         (m.role = PRole.tool_result → u.role = Role.tool_result)) := by
    intro m hm
    obtain ⟨u, humem, hmin⟩ := List.mem_flatMap.mp hm
    exact ⟨u, (List.mem_filter.mp humem).2, expandMessage_role_origin u m hmin⟩
  refine ⟨?_, ?_, ?_⟩
  · intro hs m hm hrole
    obtain ⟨u, hvis, horigin, -, -⟩ := main m hm
    rw [visibleUnder, horigin hrole, hs] at hvis
    cases hvis
  · intro hs m hm hrole
    obtain ⟨u, hvis, -, horigin, -⟩ := main m hm
    rw [visibleUnder, horigin hrole, hs] at hvis
    cases hvis
  · intro hs m hm hrole
    obtain ⟨u, hvis, -, -, horigin⟩ := main m hm
    rw [visibleUnder, horigin hrole, hs] at hvis
    cases hvis

/-- C6 (witness): with every visibility toggle off and a conversation
containing thinking, tool_call and tool_result messages, none of the
filtered roles appears in the transformed output. -/
theorem transformChatHistory_visibility_witness :
    (transformChatHistory demoMsgs demoSettingsOff).all
        (fun m => decide (m.role ≠ PRole.thinking)) = true ∧
    (transformChatHistory demoMsgs demoSettingsOff).all
        (fun m => decide (m.role ≠ PRole.tool_call)) = true ∧
    (transformChatHistory demoMsgs demoSettingsOff).all
        (fun m => decide (m.role ≠ PRole.tool_result)) = true :=
  ⟨List.all_eq_true.mpr fun m hm => decide_eq_true
    ((transformChatHistory_visibility demoMsgs demoSettingsOff).1 rfl m hm),
   List.all_eq_true.mpr fun m hm => decide_eq_true
    ((transformChatHistory_visibility demoMsgs demoSettingsOff).2.1 rfl m hm),
   List.all_eq_true.mpr fun m hm => decide_eq_true
    ((transformChatHistory_visibility demoMsgs demoSettingsOff).2.2 rfl m hm)⟩

/-- C4: during continuous playback the waits are exactly the spec's table —
user 800 ms; assistant resolution path 2000 ms placeholder then 1000 ms
post-resolution; approval resolution path 2500 ms pending, 2000 ms approved,
500 ms settle; thinking 1500 ms; tool_result 300 ms; 500 ms for every other
role — and the whole wait sequence at speed `s` is the speed-1 sequence with
every wait divided by `playbackSpeed`. -/
theorem continueAnimation_delays (speed : ℚ) (msgs : List PMsg) :
    scheduleWaits speed msgs =
      (scheduleWaits 1 msgs).map (fun w => w / speed) ∧
    baseDelay PRole.user = 800 ∧ baseDelay PRole.thinking = 1500 ∧
    baseDelay PRole.tool_result = 300 ∧ baseDelay PRole.assistant = 500 ∧
    baseDelay PRole.tool_call = 500 ∧ baseDelay PRole.subagent = 500 ∧
    (∀ (real : PMsg) (rest : List PMsg),
      scheduleWaits 1 (animMsg :: real :: rest) =
        2000 :: 1000 :: scheduleWaits 1 rest) ∧
    (∀ (real : PMsg) (rest : List PMsg),
      scheduleWaits 1 (approvalMsg :: real :: rest) =
        2500 :: 2000 :: 500 :: scheduleWaits 1 rest) := by
  have hscale : ∀ (fuel : Nat) (ms : List PMsg), ms.length ≤ fuel →
      scheduleWaits speed ms =
        (scheduleWaits 1 ms).map (fun w => w / speed) := by
    intro fuel
    induction fuel with
    | zero =>
      intro ms hms
      have hnil : ms = [] := List.eq_nil_of_length_eq_zero (by omega)
      subst hnil
      simp [scheduleWaits]
    | succ n ih =>
      intro ms hms
      match ms with
      | [] => simp [scheduleWaits]
      | m :: rest =>
        by_cases h1 : m.role = PRole.thinking_animation
        · match rest with
          | [] => simp [scheduleWaits, h1]
          | r :: rest' =>
            have hih := ih rest' (by simp at hms; omega)
            simp [scheduleWaits, h1, hih]
        · by_cases h2 : m.role = PRole.approval
          · match rest with
            | [] => simp [scheduleWaits, h1, h2]
            | r :: rest' =>
              have hih := ih rest' (by simp at hms; omega)
              simp [scheduleWaits, h1, h2, hih]
          · match rest with
            | [] => simp [scheduleWaits, h1, h2]
            | r :: rest' =>
              have hih := ih (r :: rest')
                (by simp at hms; simp only [List.length_cons]; omega)
              simp [scheduleWaits, h1, h2, hih]
  refine ⟨hscale msgs.length msgs le_rfl, rfl, rfl, rfl, rfl, rfl, rfl,
    ?_, ?_⟩
  · intro real rest
    simp [scheduleWaits, animMsg]
  · intro real rest
    simp [scheduleWaits, approvalMsg]

/-- C5: across every interleaving of timer ticks, pauses and resumes,
pausing cancels the pending timer (a tick while paused or after
invalidation changes nothing), and resuming continues from exactly the
paused cursor: the displayed sequence is always exactly the prefix
`[0, cursor)` of the expanded sequence, with no step displayed a second time
and no step skipped. -/
theorem engine_pauseResume_exact (n : Nat) (cmds : List EngineCmd) :
    (engineRun n cmds).displayed = List.range (engineRun n cmds).cursor ∧
    (engineRun n cmds).displayed.Nodup ∧
    (engineRun n cmds).cursor ≤ n := by
  have key : ∀ (cl : List EngineCmd) (st : EngineState),
      st.displayed = List.range st.cursor → st.cursor ≤ n →
      (cl.foldl (engineStep n) st).displayed =
        List.range (cl.foldl (engineStep n) st).cursor ∧
      (cl.foldl (engineStep n) st).cursor ≤ n := by
    intro cl
    induction cl with
    | nil => intro st h1 h2; exact ⟨h1, h2⟩
    | cons c rest ih =>
      intro st h1 h2
      simp only [List.foldl_cons]
      cases c with
      | tick =>
        cases hb : (st.paused || !st.timerValid) with
        | true =>
          apply ih
          · simp [engineStep, hb, h1]
          · simp [engineStep, hb, h2]
        | false =>
          by_cases hc : st.cursor < n
          · apply ih
            · simp [engineStep, hb, hc, h1, List.range_succ]
            · simp [engineStep, hb, hc]
              omega
          · apply ih
            · simp [engineStep, hb, hc, h1]
            · simp [engineStep, hb, hc, h2]
      | pause =>
        apply ih
        · simpa [engineStep] using h1
        · simpa [engineStep] using h2
      | resume =>
        apply ih
        · simpa [engineStep] using h1
        · simpa [engineStep] using h2
  obtain ⟨hd, hc⟩ := key cmds engineInit (by simp [engineInit]) (by
    simp [engineInit])
  have hd' : (engineRun n cmds).displayed =
      List.range (engineRun n cmds).cursor := hd
  refine ⟨hd', ?_, hc⟩
  rw [hd']
  exact List.nodup_range _

/-- C2 (witness for the amended theorem): on
`"<git_status>gs</git_status> deploy it"` the first application yields
`"deploy it"`, which is free of user_query regions and named-tag regions, so
a second application leaves it unchanged. -/
theorem extractUserContent_idem_of_tagFree_witness :
    extractUserContent
        (extractUserContent (cs "<git_status>gs</git_status> deploy it")) =
      extractUserContent (cs "<git_status>gs</git_status> deploy it") :=
  extractUserContent_idem_of_tagFree _ (by decide) (by decide)

end AgentReplay
